import Mathlib

/-!
Verification of the identity-and-synchronization layer of the
gojs-react-basic diagram wrapper (src/src/components/DiagramWrapper.tsx).

The development shallowly embeds the data the wrapper manipulates:
node/link data records, the model that holds them, the two key-allocation
closures installed on the model (`makeUniqueKeyFunction`,
`makeUniqueLinkKeyFunction`), the mount/unmount listener bridge, and the
behavioural flags of the node template.  Machine numbers are modelled as
unbounded `Int` (JavaScript numbers never overflow at the key densities
involved); the open property bags of the library are modelled as a record
with the `key` field the code inspects plus an abstract numeric payload.
-/

namespace DiagramWrapper

/-- A gojs data object as the allocator sees it: the `key` property, which
may be absent (`none`), plus the rest of the property bag abstracted into a
single numeric payload (`text`, `color`, `from`, `to`, ... are never read
by the code under verification). -/
structure ObjectData where
  key : Option Int := none
  payload : Nat := 0
deriving Repr, DecidableEq

/-- The slice of a `go.GraphLinksModel` the verified code reads: the node
data array and the link data array. -/
structure Model where
  nodeDataArray : List ObjectData := []
  linkDataArray : List ObjectData := []
deriving Repr, DecidableEq

/-- `go.Model.findNodeDataForKey`: the first node datum whose key equals
`k`, or `none`.  (A datum with an unset key is never found.) -/
def Model.findNodeDataForKey (m : Model) (k : Int) : Option ObjectData :=
  m.nodeDataArray.find? (fun d => d.key == some k)

/-- `go.GraphLinksModel.findLinkDataForKey`: the first link datum whose key
equals `k`, or `none`. -/
def Model.findLinkDataForKey (m : Model) (k : Int) : Option ObjectData :=
  m.linkDataArray.find? (fun d => d.key == some k)

/-- The set of keys currently taken by node data. -/
def Model.nodeKeySet (m : Model) : Finset Int :=
  (m.nodeDataArray.filterMap ObjectData.key).toFinset

/-- The set of keys currently taken by link data. -/
def Model.linkKeySet (m : Model) : Finset Int :=
  (m.linkDataArray.filterMap ObjectData.key).toFinset

/-- JavaScript `a || b` specialised to an optional integer: `undefined`
(here `none`) and `0` are falsy, every other integer is truthy.  This is
the seed computation `data.key || 1` resp. `data.key || -1`. -/
def falsyOr (a : Option Int) (b : Int) : Int :=
  match a with
  | none => b
  | some v => if v = 0 then b else v

/-- The loop `while (m.findNodeDataForKey(k)) k++;` of
`makeUniqueKeyFunction` (DiagramWrapper.tsx, lines 101-106).  Terminates
because each collision removes one element from the finite set of taken
node keys at or above `k`. -/
def probeNodeKey (m : Model) (k : Int) : Int :=
  if h : (m.findNodeDataForKey k).isSome then probeNodeKey m (k + 1) else k
termination_by (m.nodeKeySet.filter (fun x => k ≤ x)).card
decreasing_by
  have hk : k ∈ m.nodeKeySet := by
    simp only [Model.findNodeDataForKey] at h
    rw [Option.isSome_iff_exists] at h
    obtain ⟨d, hd⟩ := h
    have hmem := List.mem_of_find?_eq_some hd
    have hkey := List.find?_some hd
    simp only [beq_iff_eq] at hkey
    simp only [Model.nodeKeySet, List.mem_toFinset, List.mem_filterMap]
    exact ⟨d, hmem, hkey⟩
  apply Finset.card_lt_card
  rw [Finset.ssubset_iff_of_subset]
  · exact ⟨k, Finset.mem_filter.mpr ⟨hk, le_refl k⟩, by
      simp only [Finset.mem_filter, not_and]
      intro _
      omega⟩
  · intro x hx
    simp only [Finset.mem_filter] at hx ⊢
    exact ⟨hx.1, by omega⟩

/-- The loop `while (m.findLinkDataForKey(k)) k--;` of
`makeUniqueLinkKeyFunction` (DiagramWrapper.tsx, lines 108-113). -/
def probeLinkKey (m : Model) (k : Int) : Int :=
  if h : (m.findLinkDataForKey k).isSome then probeLinkKey m (k - 1) else k
termination_by (m.linkKeySet.filter (fun x => x ≤ k)).card
decreasing_by
  have hk : k ∈ m.linkKeySet := by
    simp only [Model.findLinkDataForKey] at h
    rw [Option.isSome_iff_exists] at h
    obtain ⟨d, hd⟩ := h
    have hmem := List.mem_of_find?_eq_some hd
    have hkey := List.find?_some hd
    simp only [beq_iff_eq] at hkey
    simp only [Model.linkKeySet, List.mem_toFinset, List.mem_filterMap]
    exact ⟨d, hmem, hkey⟩
  apply Finset.card_lt_card
  rw [Finset.ssubset_iff_of_subset]
  · exact ⟨k, Finset.mem_filter.mpr ⟨hk, le_refl k⟩, by
      simp only [Finset.mem_filter, not_and]
      intro _
      omega⟩
  · intro x hx
    simp only [Finset.mem_filter] at hx ⊢
    exact ⟨hx.1, by omega⟩

/-- Embeds `makeUniqueKeyFunction` (DiagramWrapper.tsx, lines 101-106):
```
let k = data.key || 1;
while (m.findNodeDataForKey(k)) k++;
data.key = k;
return k;
```
Returned value: the mutated datum together with the returned key. -/
def makeUniqueKeyFunction (m : Model) (data : ObjectData) : ObjectData × Int :=
  let k := probeNodeKey m (falsyOr data.key 1)
  ({ data with key := some k }, k)

/-- Embeds `makeUniqueLinkKeyFunction` (DiagramWrapper.tsx, lines 108-113):
```
let k = data.key || -1;
while (m.findLinkDataForKey(k)) k--;
data.key = k;
return k;
```
-/
def makeUniqueLinkKeyFunction (m : Model) (data : ObjectData) : ObjectData × Int :=
  let k := probeLinkKey m (falsyOr data.key (-1))
  ({ data with key := some k }, k)

/-- The node-key allocation rule exactly as the spec words it, with a
nullish-coalescing seed: "start from `requestedKey ?? 1`; while the
candidate collides with `existingNodeKeys`, increment by 1; return the
first free value".  Under `??` only an absent key seeds at 1: a present
key `0` is kept as the seed.  This definition exists solely to be compared
against `makeUniqueKeyFunction`, whose seed is JavaScript `data.key || 1`. -/
def allocateNodeKeyNullish (m : Model) (requestedKey : Option Int) : Int :=
  probeNodeKey m (requestedKey.getD 1)

/-- Modelled from the spec: the Graph Model operation `addNode(data)` for
interactive creation — "`addNode`/`addLink` with no key (or a colliding
key) delegate to the Key Allocator before insertion; the allocated key is
written back into the entity".  The insertion machinery itself lives in
the external gojs library; only the installed key function is repository
code. -/
def addNode (m : Model) (data : ObjectData) : Model × Int :=
  let r := makeUniqueKeyFunction m data
  ({ m with nodeDataArray := m.nodeDataArray ++ [r.1] }, r.2)

/-- Modelled from the spec: the Graph Model operation `addLink(data)`,
symmetric to `addNode` via `makeUniqueLinkKeyFunction`. -/
def addLink (m : Model) (data : ObjectData) : Model × Int :=
  let r := makeUniqueLinkKeyFunction m data
  ({ m with linkDataArray := m.linkDataArray ++ [r.1] }, r.2)

/-- A sequence of `addNode` calls with no explicit key, one per payload;
returns the final model and the keys assigned, in call order. -/
def runAddNodes (m : Model) : List Nat → Model × List Int
  | [] => (m, [])
  | p :: ps =>
    let r := addNode m ⟨none, p⟩
    let rest := runAddNodes r.1 ps
    (rest.1, r.2 :: rest.2)

/-- A sequence of `addLink` calls with no explicit key, one per payload. -/
def runAddLinks (m : Model) : List Nat → Model × List Int
  | [] => (m, [])
  | p :: ps =>
    let r := addLink m ⟨none, p⟩
    let rest := runAddLinks r.1 ps
    (rest.1, r.2 :: rest.2)

/-- One interactive creation step: a node creation or a link creation,
carrying only the abstract payload (no explicit key is requested). -/
inductive CreateOp where
  | node (payload : Nat)
  | link (payload : Nat)
deriving Repr, DecidableEq

/-- A mixed sequence of keyless node/link creations; returns the final
model and the keys assigned, in call order. -/
def runOps (m : Model) : List CreateOp → Model × List Int
  | [] => (m, [])
  | CreateOp.node p :: ops =>
    let r := addNode m ⟨none, p⟩
    let rest := runOps r.1 ops
    (rest.1, r.2 :: rest.2)
  | CreateOp.link p :: ops =>
    let r := addLink m ⟨none, p⟩
    let rest := runOps r.1 ops
    (rest.1, r.2 :: rest.2)

/-- The diagram-event kinds relevant to the wrapper.  gojs exposes many
more; a small enumeration suffices to express that the wrapper subscribes
to exactly one of them. -/
inductive DiagramEventKind where
  | ChangedSelection
  | SelectionMoved
  | LinkDrawn
  | TextEdited
deriving Repr, DecidableEq

/-- One registered subscription of the diagram: an event kind together
with the identity of the handler function (handlers are abstracted to
numeric identities; the wrapper always passes `this.props.onDiagramEvent`). -/
structure ListenerEntry where
  kind : DiagramEventKind
  handler : Nat
deriving Repr, DecidableEq

/-- Modelled from the spec: `go.Diagram.addDiagramListener` appends one
(kind, handler) subscription to the diagram's listener registry. -/
def addDiagramListener (L : List ListenerEntry) (k : DiagramEventKind)
    (h : Nat) : List ListenerEntry :=
  L ++ [⟨k, h⟩]

/-- Modelled from the spec: `go.Diagram.removeDiagramListener` removes one
matching (kind, handler) subscription from the registry. -/
def removeDiagramListener (L : List ListenerEntry) (k : DiagramEventKind)
    (h : Nat) : List ListenerEntry :=
  L.erase ⟨k, h⟩

/-- Modelled from the spec: raising a diagram event invokes, in
registration order, every handler subscribed to that event kind; the
result is the list of handler identities invoked. -/
def raiseEvent (L : List ListenerEntry) (k : DiagramEventKind) : List Nat :=
  (L.filter (fun e => e.kind == k)).map ListenerEntry.handler

/-- What `this.diagramRef.current?.getDiagram()` can yield: `none` when
the ref has no current component; `some none` when `getDiagram()` does not
return a `go.Diagram`; `some (some L)` a diagram whose listener registry
is `L`. -/
abbrev DiagramRef := Option (Option (List ListenerEntry))

/-- Embeds `componentDidMount` (DiagramWrapper.tsx, lines 40-46): bail out
when the ref is empty or the diagram absent, otherwise call
`diagram.addDiagramListener` with kind ChangedSelection and the external
handler `this.props.onDiagramEvent`. -/
def componentDidMount (ref : DiagramRef) (onDiagramEvent : Nat) : DiagramRef :=
  match ref with
  | none => none
  | some none => some none
  | some (some diagram) =>
    some (some (addDiagramListener diagram DiagramEventKind.ChangedSelection
      onDiagramEvent))

/-- Embeds `componentWillUnmount` (DiagramWrapper.tsx, lines 51-57): bail
out when the ref is empty or the diagram absent, otherwise call
`diagram.removeDiagramListener` with kind ChangedSelection and the same
external handler. -/
def componentWillUnmount (ref : DiagramRef) (onDiagramEvent : Nat) : DiagramRef :=
  match ref with
  | none => none
  | some none => some none
  | some (some diagram) =>
    some (some (removeDiagramListener diagram DiagramEventKind.ChangedSelection
      onDiagramEvent))

/-- The behavioural (non-visual) properties of a template part.  The
library default is that parts are copyable and deletable unless the
template overrides it. -/
structure PartProps where
  copyable : Bool := true
  deletable : Bool := true
deriving Repr, DecidableEq

/-- The behavioural settings of `diagram.nodeTemplate`
(DiagramWrapper.tsx, lines 149-151):
the node is built with copyable set to false and deletable set to false.
The visual children (shapes, panels, bindings) are out of scope. -/
def nodeTemplate : PartProps :=
  { copyable := false, deletable := false }

/-- A node part as instantiated by the surface: template properties plus
the bound datum. -/
structure NodePart where
  props : PartProps
  data : ObjectData
deriving Repr, DecidableEq

/-- Every node the surface builds is a copy of `diagram.nodeTemplate`
bound to one datum. -/
def makeNodeFromTemplate (d : ObjectData) : NodePart :=
  ⟨nodeTemplate, d⟩

/-- Modelled from the spec: the interactive delete gesture removes a
selected part only when its `deletable` flag is set (library command
semantics; the template flags are the repository code). -/
def deleteGesture (parts : List NodePart) (sel : NodePart → Bool) :
    List NodePart :=
  parts.filter (fun n => !(sel n && n.props.deletable))

/-- Modelled from the spec: the interactive copy gesture duplicates a
selected part only when its `copyable` flag is set. -/
def copyGesture (parts : List NodePart) (sel : NodePart → Bool) :
    List NodePart :=
  parts ++ parts.filter (fun n => sel n && n.props.copyable)

/-- The link-key allocation rule with a nullish-coalescing seed
`requestedKey ?? -1`, the mirror of `allocateNodeKeyNullish`; it exists
solely to be compared against `makeUniqueLinkKeyFunction`. -/
def allocateLinkKeyNullish (m : Model) (requestedKey : Option Int) : Int :=
  probeLinkKey m (requestedKey.getD (-1))

/-- Sample input: a model holding exactly one node datum, with key 1. -/
def oneNodeModel : Model := ⟨[⟨some 1, 0⟩], []⟩

/-- Sample input: same taken keys as `oneNodeModel`, different payload. -/
def oneNodeModelAlt : Model := ⟨[⟨some 1, 42⟩], []⟩

/-- Sample input: the empty model. -/
def emptyModel : Model := ⟨[], []⟩

/-- Sample input: a model whose node key 5 and link key -1 are taken. -/
def collidingModel : Model := ⟨[⟨some 5, 0⟩], [⟨some (-1), 0⟩]⟩

/-!
The remainder of the file is the theorem development: general lemmas about
the two probe loops and the derived operations, followed by one theorem
per verified property.
-/

theorem findNodeDataForKey_isSome_iff (m : Model) (k : Int) :
    (m.findNodeDataForKey k).isSome ↔ k ∈ m.nodeKeySet := by
  simp [Model.findNodeDataForKey, Model.nodeKeySet, List.find?_isSome,
    List.mem_filterMap, beq_iff_eq]

theorem findLinkDataForKey_isSome_iff (m : Model) (k : Int) :
    (m.findLinkDataForKey k).isSome ↔ k ∈ m.linkKeySet := by
  simp [Model.findLinkDataForKey, Model.linkKeySet, List.find?_isSome,
    List.mem_filterMap, beq_iff_eq]

theorem probeNodeKey_free (m : Model) (k : Int) :
    (m.findNodeDataForKey (probeNodeKey m k)).isSome = false := by
  induction k using probeNodeKey.induct m with
  | case1 k h ih => rw [probeNodeKey, dif_pos h]; exact ih
  | case2 k h => rw [probeNodeKey, dif_neg h]; simpa using h

theorem probeLinkKey_free (m : Model) (k : Int) :
    (m.findLinkDataForKey (probeLinkKey m k)).isSome = false := by
  induction k using probeLinkKey.induct m with
  | case1 k h ih => rw [probeLinkKey, dif_pos h]; exact ih
  | case2 k h => rw [probeLinkKey, dif_neg h]; simpa using h

theorem probeNodeKey_not_mem (m : Model) (k : Int) :
    probeNodeKey m k ∉ m.nodeKeySet := by
  rw [← findNodeDataForKey_isSome_iff]
  simp [probeNodeKey_free]

theorem probeLinkKey_not_mem (m : Model) (k : Int) :
    probeLinkKey m k ∉ m.linkKeySet := by
  rw [← findLinkDataForKey_isSome_iff]
  simp [probeLinkKey_free]

theorem le_probeNodeKey (m : Model) (k : Int) : k ≤ probeNodeKey m k := by
  induction k using probeNodeKey.induct m with
  | case1 k h ih => rw [probeNodeKey, dif_pos h]; omega
  | case2 k h => rw [probeNodeKey, dif_neg h]

theorem probeLinkKey_le (m : Model) (k : Int) : probeLinkKey m k ≤ k := by
  induction k using probeLinkKey.induct m with
  | case1 k h ih => rw [probeLinkKey, dif_pos h]; omega
  | case2 k h => rw [probeLinkKey, dif_neg h]

theorem mem_of_lt_probeNodeKey (m : Model) (k : Int) :
    ∀ j : Int, k ≤ j → j < probeNodeKey m k → j ∈ m.nodeKeySet := by
  induction k using probeNodeKey.induct m with
  | case1 k h ih =>
    intro j hle hlt
    rw [probeNodeKey, dif_pos h] at hlt
    rcases eq_or_lt_of_le hle with heq | hlt2
    · exact heq ▸ (findNodeDataForKey_isSome_iff m k).mp h
    · exact ih j (by omega) hlt
  | case2 k h =>
    intro j hle hlt
    rw [probeNodeKey, dif_neg h] at hlt
    omega

theorem mem_of_probeLinkKey_lt (m : Model) (k : Int) :
    ∀ j : Int, j ≤ k → probeLinkKey m k < j → j ∈ m.linkKeySet := by
  induction k using probeLinkKey.induct m with
  | case1 k h ih =>
    intro j hle hlt
    rw [probeLinkKey, dif_pos h] at hlt
    rcases eq_or_lt_of_le hle with heq | hlt2
    · exact heq ▸ (findLinkDataForKey_isSome_iff m k).mp h
    · exact ih j (by omega) hlt
  | case2 k h =>
    intro j hle hlt
    rw [probeLinkKey, dif_neg h] at hlt
    omega

theorem probeNodeKey_le_add_card (m : Model) (k : Int) :
    probeNodeKey m k ≤ k + ((m.nodeKeySet.filter (fun x => k ≤ x)).card : Int) := by
  induction k using probeNodeKey.induct m with
  | case1 k h ih =>
    rw [probeNodeKey, dif_pos h]
    have hk : k ∈ m.nodeKeySet := (findNodeDataForKey_isSome_iff m k).mp h
    have hnm : k ∉ m.nodeKeySet.filter (fun x => k + 1 ≤ x) := fun hx =>
      absurd (Finset.mem_filter.mp hx).2 (by omega)
    have hsub : insert k (m.nodeKeySet.filter (fun x => k + 1 ≤ x)) ⊆
        m.nodeKeySet.filter (fun x => k ≤ x) := by
      intro x hx
      rcases Finset.mem_insert.mp hx with rfl | hx
      · exact Finset.mem_filter.mpr ⟨hk, le_refl x⟩
      · exact Finset.mem_filter.mpr ⟨(Finset.mem_filter.mp hx).1, by
          have := (Finset.mem_filter.mp hx).2; omega⟩
    have hcard := Finset.card_le_card hsub
    rw [Finset.card_insert_of_not_mem hnm] at hcard
    omega
  | case2 k h =>
    rw [probeNodeKey, dif_neg h]
    omega

theorem sub_card_le_probeLinkKey (m : Model) (k : Int) :
    k - ((m.linkKeySet.filter (fun x => x ≤ k)).card : Int) ≤ probeLinkKey m k := by
  induction k using probeLinkKey.induct m with
  | case1 k h ih =>
    rw [probeLinkKey, dif_pos h]
    have hk : k ∈ m.linkKeySet := (findLinkDataForKey_isSome_iff m k).mp h
    have hnm : k ∉ m.linkKeySet.filter (fun x => x ≤ k - 1) := fun hx =>
      absurd (Finset.mem_filter.mp hx).2 (by omega)
    have hsub : insert k (m.linkKeySet.filter (fun x => x ≤ k - 1)) ⊆
        m.linkKeySet.filter (fun x => x ≤ k) := by
      intro x hx
      rcases Finset.mem_insert.mp hx with rfl | hx
      · exact Finset.mem_filter.mpr ⟨hk, le_refl x⟩
      · exact Finset.mem_filter.mpr ⟨(Finset.mem_filter.mp hx).1, by
          have := (Finset.mem_filter.mp hx).2; omega⟩
    have hcard := Finset.card_le_card hsub
    rw [Finset.card_insert_of_not_mem hnm] at hcard
    omega
  | case2 k h =>
    rw [probeLinkKey, dif_neg h]
    omega

theorem probeNodeKey_congr (m₁ m₂ : Model)
    (hs : m₁.nodeKeySet = m₂.nodeKeySet) (k : Int) :
    probeNodeKey m₁ k = probeNodeKey m₂ k := by
  induction k using probeNodeKey.induct m₁ with
  | case1 k h ih =>
    have h2 : (m₂.findNodeDataForKey k).isSome := by
      rw [findNodeDataForKey_isSome_iff, ← hs, ← findNodeDataForKey_isSome_iff]
      exact h
    rw [probeNodeKey, dif_pos h, ih]
    conv_rhs => rw [probeNodeKey]
    rw [dif_pos h2]
  | case2 k h =>
    have h2 : ¬ (m₂.findNodeDataForKey k).isSome = true := by
      rw [findNodeDataForKey_isSome_iff, ← hs, ← findNodeDataForKey_isSome_iff]
      exact h
    rw [probeNodeKey, dif_neg h]
    conv_rhs => rw [probeNodeKey]
    rw [dif_neg h2]

theorem probeLinkKey_congr (m₁ m₂ : Model)
    (hs : m₁.linkKeySet = m₂.linkKeySet) (k : Int) :
    probeLinkKey m₁ k = probeLinkKey m₂ k := by
  induction k using probeLinkKey.induct m₁ with
  | case1 k h ih =>
    have h2 : (m₂.findLinkDataForKey k).isSome := by
      rw [findLinkDataForKey_isSome_iff, ← hs, ← findLinkDataForKey_isSome_iff]
      exact h
    rw [probeLinkKey, dif_pos h, ih]
    conv_rhs => rw [probeLinkKey]
    rw [dif_pos h2]
  | case2 k h =>
    have h2 : ¬ (m₂.findLinkDataForKey k).isSome = true := by
      rw [findLinkDataForKey_isSome_iff, ← hs, ← findLinkDataForKey_isSome_iff]
      exact h
    rw [probeLinkKey, dif_neg h]
    conv_rhs => rw [probeLinkKey]
    rw [dif_neg h2]

theorem addNode_key (m : Model) (d : ObjectData) :
    (addNode m d).2 = probeNodeKey m (falsyOr d.key 1) := rfl

theorem addLink_key (m : Model) (d : ObjectData) :
    (addLink m d).2 = probeLinkKey m (falsyOr d.key (-1)) := rfl

theorem addNode_nodeKeySet (m : Model) (d : ObjectData) :
    (addNode m d).1.nodeKeySet = insert (addNode m d).2 m.nodeKeySet := by
  simp only [addNode, makeUniqueKeyFunction, Model.nodeKeySet,
    List.filterMap_append, List.toFinset_append]
  simp [Finset.insert_eq, Finset.union_comm]

theorem addLink_linkKeySet (m : Model) (d : ObjectData) :
    (addLink m d).1.linkKeySet = insert (addLink m d).2 m.linkKeySet := by
  simp only [addLink, makeUniqueLinkKeyFunction, Model.linkKeySet,
    List.filterMap_append, List.toFinset_append]
  simp [Finset.insert_eq, Finset.union_comm]

theorem addNode_linkKeySet (m : Model) (d : ObjectData) :
    (addNode m d).1.linkKeySet = m.linkKeySet := rfl

theorem addLink_nodeKeySet (m : Model) (d : ObjectData) :
    (addLink m d).1.nodeKeySet = m.nodeKeySet := rfl

theorem runAddNodes_fresh (ps : List Nat) :
    ∀ m : Model, ∀ j ∈ m.nodeKeySet, j ∉ (runAddNodes m ps).2 := by
  induction ps with
  | nil => intro m j hj; simp [runAddNodes]
  | cons p ps ih =>
    intro m j hj
    simp only [runAddNodes, List.mem_cons, not_or]
    refine ⟨fun hEq => ?_, ?_⟩
    · rw [hEq, addNode_key] at hj
      exact probeNodeKey_not_mem m _ hj
    · exact ih _ j (by rw [addNode_nodeKeySet]; exact Finset.mem_insert_of_mem hj)

theorem runAddLinks_fresh (ps : List Nat) :
    ∀ m : Model, ∀ j ∈ m.linkKeySet, j ∉ (runAddLinks m ps).2 := by
  induction ps with
  | nil => intro m j hj; simp [runAddLinks]
  | cons p ps ih =>
    intro m j hj
    simp only [runAddLinks, List.mem_cons, not_or]
    refine ⟨fun hEq => ?_, ?_⟩
    · rw [hEq, addLink_key] at hj
      exact probeLinkKey_not_mem m _ hj
    · exact ih _ j (by rw [addLink_linkKeySet]; exact Finset.mem_insert_of_mem hj)

theorem runAddNodes_nodup (ps : List Nat) :
    ∀ m : Model, (runAddNodes m ps).2.Nodup := by
  induction ps with
  | nil => intro m; simp [runAddNodes]
  | cons p ps ih =>
    intro m
    simp only [runAddNodes, List.nodup_cons]
    refine ⟨?_, ih _⟩
    apply runAddNodes_fresh
    rw [addNode_nodeKeySet]
    exact Finset.mem_insert_self _ _

theorem runAddLinks_nodup (ps : List Nat) :
    ∀ m : Model, (runAddLinks m ps).2.Nodup := by
  induction ps with
  | nil => intro m; simp [runAddLinks]
  | cons p ps ih =>
    intro m
    simp only [runAddLinks, List.nodup_cons]
    refine ⟨?_, ih _⟩
    apply runAddLinks_fresh
    rw [addLink_linkKeySet]
    exact Finset.mem_insert_self _ _

theorem runAddNodes_pos (ps : List Nat) :
    ∀ m : Model, ∀ k ∈ (runAddNodes m ps).2, 0 < k := by
  induction ps with
  | nil => intro m k hk; simp [runAddNodes] at hk
  | cons p ps ih =>
    intro m k hk
    simp only [runAddNodes, List.mem_cons] at hk
    rcases hk with rfl | hk
    · have := le_probeNodeKey m (falsyOr none 1)
      simp only [falsyOr] at this
      rw [addNode_key]
      simp only [falsyOr]
      omega
    · exact ih _ k hk

theorem runAddLinks_neg (ps : List Nat) :
    ∀ m : Model, ∀ k ∈ (runAddLinks m ps).2, k < 0 := by
  induction ps with
  | nil => intro m k hk; simp [runAddLinks] at hk
  | cons p ps ih =>
    intro m k hk
    simp only [runAddLinks, List.mem_cons] at hk
    rcases hk with rfl | hk
    · have := probeLinkKey_le m (falsyOr none (-1))
      simp only [falsyOr] at this
      rw [addLink_key]
      simp only [falsyOr]
      omega
    · exact ih _ k hk

theorem runOps_congr (ops : List CreateOp) :
    ∀ m₁ m₂ : Model, m₁.nodeKeySet = m₂.nodeKeySet →
      m₁.linkKeySet = m₂.linkKeySet →
      (runOps m₁ ops).2 = (runOps m₂ ops).2 := by
  induction ops with
  | nil => intro m₁ m₂ _ _; simp [runOps]
  | cons op ops ih =>
    intro m₁ m₂ hn hl
    cases op with
    | node p =>
      have hk : (addNode m₁ ⟨none, p⟩).2 = (addNode m₂ ⟨none, p⟩).2 := by
        rw [addNode_key, addNode_key]
        exact probeNodeKey_congr m₁ m₂ hn _
      simp only [runOps]
      rw [hk, ih (addNode m₁ ⟨none, p⟩).1 (addNode m₂ ⟨none, p⟩).1
        (by rw [addNode_nodeKeySet, addNode_nodeKeySet, hn, hk])
        (by rw [addNode_linkKeySet, addNode_linkKeySet]; exact hl)]
    | link p =>
      have hk : (addLink m₁ ⟨none, p⟩).2 = (addLink m₂ ⟨none, p⟩).2 := by
        rw [addLink_key, addLink_key]
        exact probeLinkKey_congr m₁ m₂ hl _
      simp only [runOps]
      rw [hk, ih (addLink m₁ ⟨none, p⟩).1 (addLink m₂ ⟨none, p⟩).1
        (by rw [addLink_nodeKeySet, addLink_nodeKeySet]; exact hn)
        (by rw [addLink_linkKeySet, addLink_linkKeySet, hl, hk])]

/-- C1 (amended): node key allocation is a linear upward probe seeded at
`data.key || 1` (an absent or zero key seeds at 1): the returned key is at
least the seed, is not a taken node key, every candidate between the seed
and the returned key is taken (the first free value is returned), and
adding a keyless node to a model holding exactly node key 1 yields key 2. -/
theorem nodeKeyAllocation_upward_probe (m : Model) (d : ObjectData) :
    falsyOr d.key 1 ≤ (makeUniqueKeyFunction m d).2 ∧
    (makeUniqueKeyFunction m d).2 ∉ m.nodeKeySet ∧
    (∀ j : Int, falsyOr d.key 1 ≤ j → j < (makeUniqueKeyFunction m d).2 →
      j ∈ m.nodeKeySet) ∧
    (makeUniqueKeyFunction oneNodeModel ⟨none, 0⟩).2 = 2 := by
  have hdef : (makeUniqueKeyFunction m d).2 = probeNodeKey m (falsyOr d.key 1) := rfl
  rw [hdef]
  refine ⟨le_probeNodeKey m _, probeNodeKey_not_mem m _,
    fun j h1 h2 => mem_of_lt_probeNodeKey m _ j h1 h2, ?_⟩
  simp [makeUniqueKeyFunction, probeNodeKey, Model.findNodeDataForKey, falsyOr,
    oneNodeModel, List.find?]

/-- C1 witness: instantiating the amended claim at `oneNodeModel` with a
keyless datum; the probe passes over the taken key 1. -/
theorem nodeKeyAllocation_upward_probe_inst :
    (1 : Int) ∈ oneNodeModel.nodeKeySet :=
  (nodeKeyAllocation_upward_probe oneNodeModel ⟨none, 0⟩).2.2.1 1
    (by simp [falsyOr])
    (by simp [makeUniqueKeyFunction, probeNodeKey, Model.findNodeDataForKey,
      falsyOr, oneNodeModel, List.find?])

/-- C1 counterexample: the seed is JavaScript `data.key || 1`, not
`requestedKey ?? 1`.  For the datum requesting key 0 on a model holding
only node key 1, the first free value from the nullish seed `0` is `0`
itself, but the code returns `2`: the allocator does not start from
`requestedKey ?? 1`. -/
theorem nodeKeyAllocation_nullish_seed_cex :
    (makeUniqueKeyFunction oneNodeModel ⟨some 0, 0⟩).2 = 2 ∧
    allocateNodeKeyNullish oneNodeModel (some 0) = 0 ∧
    (makeUniqueKeyFunction oneNodeModel ⟨some 0, 0⟩).2
      ≠ allocateNodeKeyNullish oneNodeModel (ObjectData.key ⟨some 0, 0⟩) := by
  refine ⟨?_, ?_, ?_⟩ <;>
    simp [makeUniqueKeyFunction, allocateNodeKeyNullish, probeNodeKey,
      Model.findNodeDataForKey, falsyOr, oneNodeModel, List.find?]

/-- C2: every sequence of keyless `addNode` calls yields pairwise distinct
strictly positive keys, from any starting model. -/
theorem addNode_keys_distinct_pos (m : Model) (ps : List Nat) :
    (runAddNodes m ps).2.Nodup ∧ ∀ k ∈ (runAddNodes m ps).2, 0 < k :=
  ⟨runAddNodes_nodup ps m, runAddNodes_pos ps m⟩

/-- C2 witness: three keyless node additions on `oneNodeModel`. -/
theorem addNode_keys_distinct_pos_inst :
    (runAddNodes oneNodeModel [7, 8, 9]).2.Nodup ∧
    ∀ k ∈ (runAddNodes oneNodeModel [7, 8, 9]).2, 0 < k :=
  addNode_keys_distinct_pos oneNodeModel [7, 8, 9]

/-- C3 (amended): link key allocation mirrors node allocation with seed
`data.key || -1` (an absent or zero key seeds at -1), decrementing on
collision to the first free value; every sequence of keyless `addLink`
calls yields pairwise distinct strictly negative keys. -/
theorem linkKeyAllocation_downward_probe (m : Model) (d : ObjectData)
    (ps : List Nat) :
    (makeUniqueLinkKeyFunction m d).2 ≤ falsyOr d.key (-1) ∧
    (makeUniqueLinkKeyFunction m d).2 ∉ m.linkKeySet ∧
    (∀ j : Int, j ≤ falsyOr d.key (-1) →
      (makeUniqueLinkKeyFunction m d).2 < j → j ∈ m.linkKeySet) ∧
    (runAddLinks m ps).2.Nodup ∧
    (∀ k ∈ (runAddLinks m ps).2, k < 0) := by
  have hdef : (makeUniqueLinkKeyFunction m d).2
      = probeLinkKey m (falsyOr d.key (-1)) := rfl
  rw [hdef]
  exact ⟨probeLinkKey_le m _, probeLinkKey_not_mem m _,
    fun j h1 h2 => mem_of_probeLinkKey_lt m _ j h1 h2,
    runAddLinks_nodup ps m, runAddLinks_neg ps m⟩

/-- C3 witness: two keyless link additions on the empty model; the inner
universal is applied at the seed itself on `collidingModel`, whose link
key -1 is taken. -/
theorem linkKeyAllocation_downward_probe_inst :
    ((runAddLinks emptyModel [4, 5]).2.Nodup ∧
      ∀ k ∈ (runAddLinks emptyModel [4, 5]).2, k < 0) ∧
    (-1 : Int) ∈ collidingModel.linkKeySet :=
  ⟨⟨(linkKeyAllocation_downward_probe emptyModel ⟨none, 0⟩ [4, 5]).2.2.2.1,
    (linkKeyAllocation_downward_probe emptyModel ⟨none, 0⟩ [4, 5]).2.2.2.2⟩,
    (linkKeyAllocation_downward_probe collidingModel ⟨none, 0⟩ []).2.2.1 (-1)
      (by simp [falsyOr])
      (by simp [makeUniqueLinkKeyFunction, probeLinkKey,
        Model.findLinkDataForKey, falsyOr, collidingModel, List.find?])⟩

/-- C3 counterexample: the seed is `data.key || -1`, not
`requestedKey ?? -1`.  For the datum requesting key 0 on the empty model,
the nullish seed would be 0 and the first free value from it is 0, but
the code returns -1. -/
theorem linkKeyAllocation_nullish_seed_cex :
    (makeUniqueLinkKeyFunction emptyModel ⟨some 0, 0⟩).2 = -1 ∧
    allocateLinkKeyNullish emptyModel (some 0) = 0 ∧
    (makeUniqueLinkKeyFunction emptyModel ⟨some 0, 0⟩).2
      ≠ allocateLinkKeyNullish emptyModel (ObjectData.key ⟨some 0, 0⟩) := by
  refine ⟨?_, ?_, ?_⟩ <;>
    simp [makeUniqueLinkKeyFunction, allocateLinkKeyNullish, probeLinkKey,
      Model.findLinkDataForKey, falsyOr, emptyModel, List.find?]

/-- C4: for every model and every datum — whatever key it requests,
colliding or not — both allocators return a key outside the corresponding
existing key set; being total Lean functions, they never error. -/
theorem allocator_returns_fresh_key (m : Model) (d : ObjectData) :
    (makeUniqueKeyFunction m d).2 ∉ m.nodeKeySet ∧
    (makeUniqueLinkKeyFunction m d).2 ∉ m.linkKeySet :=
  ⟨probeNodeKey_not_mem m _, probeLinkKey_not_mem m _⟩

/-- C4 witness: a datum requesting key 5 while `collidingModel` already
holds node key 5 (and link key -1): both results are fresh. -/
theorem allocator_returns_fresh_key_inst :
    (makeUniqueKeyFunction collidingModel ⟨some 5, 0⟩).2
        ∉ collidingModel.nodeKeySet ∧
    (makeUniqueLinkKeyFunction collidingModel ⟨some 5, 0⟩).2
        ∉ collidingModel.linkKeySet :=
  allocator_returns_fresh_key collidingModel ⟨some 5, 0⟩

/-- C5: key assignment is deterministic and depends only on the sets of
taken keys: two models with the same taken node keys and taken link keys
assign the same keys to the same sequence of keyless creations. -/
theorem keyAssignment_deterministic (m₁ m₂ : Model) (ops : List CreateOp)
    (hn : m₁.nodeKeySet = m₂.nodeKeySet)
    (hl : m₁.linkKeySet = m₂.linkKeySet) :
    (runOps m₁ ops).2 = (runOps m₂ ops).2 :=
  runOps_congr ops m₁ m₂ hn hl

/-- C5 witness: `oneNodeModel` and `oneNodeModelAlt` differ in payload but
agree on taken keys, so a mixed creation sequence gets identical keys. -/
theorem keyAssignment_deterministic_inst :
    (runOps oneNodeModel [CreateOp.node 7, CreateOp.link 8, CreateOp.node 9]).2
      = (runOps oneNodeModelAlt
          [CreateOp.node 7, CreateOp.link 8, CreateOp.node 9]).2 :=
  keyAssignment_deterministic oneNodeModel oneNodeModelAlt
    [CreateOp.node 7, CreateOp.link 8, CreateOp.node 9] (by decide) (by decide)

/-- C6: both allocators write the allocated key back into the datum's
`key` field, and the returned value equals that field after the call. -/
theorem allocatedKey_written_back (m : Model) (d : ObjectData) :
    (makeUniqueKeyFunction m d).1.key = some (makeUniqueKeyFunction m d).2 ∧
    (makeUniqueLinkKeyFunction m d).1.key
      = some (makeUniqueLinkKeyFunction m d).2 :=
  ⟨rfl, rfl⟩

/-- C7: mounting subscribes exactly one (ChangedSelection, handler)
subscription; raising an event dispatches to the handler exactly for
ChangedSelection and leaves every other kind's dispatch unchanged; and
unmounting removes exactly the subscription mounting added, restoring the
registry. -/
theorem eventBridge_mount_unmount (L : List ListenerEntry) (h : Nat)
    (hfresh : (⟨DiagramEventKind.ChangedSelection, h⟩ : ListenerEntry) ∉ L) :
    componentDidMount (some (some L)) h =
      some (some (L ++ [⟨DiagramEventKind.ChangedSelection, h⟩])) ∧
    (∀ k : DiagramEventKind,
      raiseEvent (L ++ [⟨DiagramEventKind.ChangedSelection, h⟩]) k =
        if k = DiagramEventKind.ChangedSelection then raiseEvent L k ++ [h]
        else raiseEvent L k) ∧
    componentWillUnmount (componentDidMount (some (some L)) h) h
      = some (some L) := by
  refine ⟨rfl, ?_, ?_⟩
  · intro k
    by_cases hk : k = DiagramEventKind.ChangedSelection
    · subst hk
      simp [raiseEvent, List.filter_append]
    · have hCS : (DiagramEventKind.ChangedSelection == k) = false :=
        beq_eq_false_iff_ne.mpr fun hEq => hk hEq.symm
      simp [raiseEvent, List.filter_append, hCS, hk]
  · simp only [componentDidMount, componentWillUnmount, addDiagramListener,
      removeDiagramListener]
    rw [List.erase_append_right _ hfresh]
    simp

/-- C7 witness: mounting on a diagram with an empty registry and handler 0,
then unmounting, leaves no subscription registered. -/
theorem eventBridge_mount_unmount_inst :
    componentWillUnmount
      (componentDidMount (some (some ([] : List ListenerEntry))) 0) 0
      = some (some ([] : List ListenerEntry)) :=
  (eventBridge_mount_unmount [] 0 (by simp)).2.2

/-- C8: a requested key 0 is falsy, hence treated as unset: node
allocation then behaves exactly as with no key and returns a positive
key; link allocation likewise and returns a negative key. -/
theorem zeroKey_treated_as_unset (m : Model) (d : ObjectData)
    (hd : d.key = some 0) :
    (makeUniqueKeyFunction m d).2
      = (makeUniqueKeyFunction m ⟨none, d.payload⟩).2 ∧
    0 < (makeUniqueKeyFunction m d).2 ∧
    (makeUniqueLinkKeyFunction m d).2
      = (makeUniqueLinkKeyFunction m ⟨none, d.payload⟩).2 ∧
    (makeUniqueLinkKeyFunction m d).2 < 0 := by
  have h1 := le_probeNodeKey m 1
  have h2 := probeLinkKey_le m (-1)
  refine ⟨?_, ?_, ?_, ?_⟩ <;>
    simp [makeUniqueKeyFunction, makeUniqueLinkKeyFunction, hd, falsyOr] <;>
    omega

/-- C8 witness: requesting key 0 on `oneNodeModel` allocates node key 2
(positive, the same as with no key at all). -/
theorem zeroKey_treated_as_unset_inst :
    0 < (makeUniqueKeyFunction oneNodeModel ⟨some 0, 3⟩).2 :=
  (zeroKey_treated_as_unset oneNodeModel ⟨some 0, 3⟩ rfl).2.1

/-- C9: both probe loops terminate on a key that is free, and the number
of probe steps (distance from seed to result) is at most the number of
existing node keys resp. link keys. -/
theorem probe_reaches_free_key_within_card (m : Model) (k : Int) :
    (m.findNodeDataForKey (probeNodeKey m k)).isSome = false ∧
    probeNodeKey m k - k ≤ (m.nodeKeySet.card : Int) ∧
    (m.findLinkDataForKey (probeLinkKey m k)).isSome = false ∧
    k - probeLinkKey m k ≤ (m.linkKeySet.card : Int) := by
  have h1 := probeNodeKey_le_add_card m k
  have h2 := sub_card_le_probeLinkKey m k
  have h3 : ((m.nodeKeySet.filter (fun x => k ≤ x)).card : Int)
      ≤ (m.nodeKeySet.card : Int) := by
    exact_mod_cast Finset.card_filter_le _ _
  have h4 : ((m.linkKeySet.filter (fun x => x ≤ k)).card : Int)
      ≤ (m.linkKeySet.card : Int) := by
    exact_mod_cast Finset.card_filter_le _ _
  exact ⟨probeNodeKey_free m k, by omega, probeLinkKey_free m k, by omega⟩

/-- C10: every node built from the node template has `copyable = false`
and `deletable = false`, so on a diagram whose nodes all come from the
template, the interactive delete gesture removes nothing and the copy
gesture duplicates nothing, whatever the selection. -/
theorem templateNodes_locked (parts : List NodePart) (sel : NodePart → Bool)
    (d : ObjectData) (hp : ∀ n ∈ parts, n.props = nodeTemplate) :
    (makeNodeFromTemplate d).props.copyable = false ∧
    (makeNodeFromTemplate d).props.deletable = false ∧
    deleteGesture parts sel = parts ∧
    copyGesture parts sel = parts := by
  refine ⟨rfl, rfl, ?_, ?_⟩
  · apply List.filter_eq_self.mpr
    intro n hn
    rw [hp n hn]
    simp [nodeTemplate]
  · have hnil : parts.filter (fun n => sel n && n.props.copyable) = [] := by
      apply List.filter_eq_nil_iff.mpr
      intro n hn
      rw [hp n hn]
      simp [nodeTemplate]
    simp [copyGesture, hnil]

/-- C10 witness: a single template node, fully selected: the delete
gesture leaves the diagram unchanged. -/
theorem templateNodes_locked_inst :
    deleteGesture [makeNodeFromTemplate ⟨some 1, 0⟩] (fun _ => true)
      = [makeNodeFromTemplate ⟨some 1, 0⟩] :=
  (templateNodes_locked [makeNodeFromTemplate ⟨some 1, 0⟩] (fun _ => true)
    ⟨some 1, 0⟩ (by intro n hn; simp at hn; rw [hn]; rfl)).2.2.1

end DiagramWrapper
